import Mathlib

/-!
Verification development for the shader-manager subsystem
(wgpu_2d/src/shader_manager/mod.rs).

Text is modelled as a list of characters.  The filesystem below the
configured root directory is modelled as a finite association list held in
the state (field `disk`); reading the file `directory_path + path` becomes a
lookup of `path` in that list, with a missing key standing for the
recoverable NotFound error.  Other I/O errors are not modelled.  The opaque
backend handles (wgpu ShaderModule / RenderPipeline) are modelled as natural
numbers drawn from monotone counters `moduleCompiles` and `pipelineLinks`;
each counter also records how many times the corresponding backend entry
point (create_shader_module / create_render_pipeline) has run.  A Rust
panic is modelled as an error result paired with the state reached at the
moment of the panic, so that one can state which effects did or did not
happen before the abort.

One abort needs care: the splice in get_source_new computes
source.as_ptr().offset_from(line.as_ptr()) — source start minus line start,
the negation of the directive line's byte offset — and converts it to
usize, which fails for every directive line that does not start at the
very beginning of the buffer.  The model reproduces this abort; the splice
as the spec describes it is kept as a separate definition for comparison.
-/

/-- Shader source text, modelled as a list of characters. -/
abbrev Str := List Char

/-- Association-list lookup, modelling HashMap::get. -/
def alGet {α : Type} : List (Str × α) → Str → Option α
  | [], _ => none
  | p :: rest, k => if p.1 = k then some p.2 else alGet rest k

/-- Association-list insert-if-absent, modelling Entry::or_insert (the
insertion itself; the argument of or_insert is evaluated by the caller). -/
def alInsertIfAbsent {α : Type} (l : List (Str × α)) (k : Str) (v : α) : List (Str × α) :=
  match alGet l k with
  | some _ => l
  | none => (k, v) :: l

/-- Splits at the first occurrence of pat, modelling str::split_once with a
string pattern.  Returns the parts strictly before and strictly after the
occurrence. -/
def splitOnceP (pat : Str) : Str → Option (Str × Str)
  | [] => if pat = [] then some ([], []) else none
  | c :: s =>
    if (c :: s).take pat.length = pat then some ([], (c :: s).drop pat.length)
    else (splitOnceP pat s).map fun p => (c :: p.1, p.2)

/-- Splits at the first occurrence of a single character, modelling
str::split_once with a char pattern. -/
def splitOnceC (c : Char) (s : Str) : Option (Str × Str) :=
  splitOnceP [c] s

/-- Splits at the last occurrence of a single character, modelling
str::rsplit_once with a char pattern. -/
def rsplitOnceC (c : Char) : Str → Option (Str × Str)
  | [] => none
  | x :: s =>
    match rsplitOnceC c s with
    | some p => some (x :: p.1, p.2)
    | none => if x = c then some ([], s) else none

/-- Removes trailing whitespace. -/
def rtrim (s : Str) : Str := (s.reverse.dropWhile Char.isWhitespace).reverse

/-- Removes leading and trailing whitespace, modelling str::trim. -/
def trimS (s : Str) : Str := rtrim (s.dropWhile Char.isWhitespace)

/-- Splits on the newline character, keeping empty segments,
modelling str::split with a newline pattern. -/
def splitNl : Str → List Str
  | [] => [[]]
  | c :: s =>
    if c = '\n' then [] :: splitNl s
    else
      match splitNl s with
      | seg :: segs => (c :: seg) :: segs
      | [] => [[c]]

/-- Joins segments with newline characters, the inverse of splitNl. -/
def intercalateNl : List Str → Str
  | [] => []
  | [x] => x
  | x :: xs => x ++ '\n' :: intercalateNl xs

/-- Removes one trailing carriage return, modelling the carriage-return part
of the line terminator handling of str::lines. -/
def stripCr (l : Str) : Str :=
  match l.reverse with
  | '\r' :: rest => rest.reverse
  | _ => l

/-- Applies f to every element except the last. -/
def mapInit (f : Str → Str) : List Str → List Str
  | [] => []
  | [x] => [x]
  | x :: xs => f x :: mapInit f xs

/-- Drops a final empty segment. -/
def dropLastEmpty : List Str → List Str
  | [] => []
  | [x] => if x = [] then [] else [x]
  | x :: xs => x :: dropLastEmpty xs

/-- Modelling str::lines: split on newlines; every segment except the final
one was terminated by a newline and has a trailing carriage return removed;
a trailing empty segment (from a final line ending) is dropped. -/
def rustLines (s : Str) : List Str := dropLastEmpty (mapInit stripCr (splitNl s))

/-- The include directive keyword. -/
def incPat : Str := "#include".data

/-- The part of a matched line after the keyword: first split at the opening
angle bracket, then split at the last closing angle bracket, keeping what
stands strictly between them (from find_next_include in get_source_new). -/
def extractPath (path_container : Str) : Option Str :=
  match splitOnceC '<' path_container with
  | none => none
  | some p =>
    match rsplitOnceC '>' p.2 with
    | none => none
    | some q => some q.1

/-- Processing of one line by find_next_include:
line.trim().split_once("#include")?.1.trim(), then the angle-bracket
extraction. -/
def lineDirective (line : Str) : Option Str :=
  match splitOnceP incPat (trimS line) with
  | none => none
  | some p => extractPath (trimS p.2)

/-- First line (with its index) whose directive extraction succeeds. -/
def firstDirective : Nat → List Str → Option (Nat × Str)
  | _, [] => none
  | i, l :: ls =>
    match lineDirective l with
    | some p => some (i, p)
    | none => firstDirective (i + 1) ls

/-- Modelling find_next_include in get_source_new: goes line by line and
finds the first line that contains an include directive.  The line slice of
the source is represented by the index of the line. -/
def find_next_include (input : Str) : Option (Nat × Str) :=
  firstDirective 0 (rustLines input)

/-- Whether a segment of splitNl ends with a carriage return. -/
def endsWithCr (seg : Str) : Bool :=
  match seg.reverse with
  | '\r' :: _ => true
  | _ => false

/-- Modelling the splice in get_source_new: the byte range of line i
(excluding its terminator, and excluding a carriage return stripped by
str::lines when the line was newline-terminated) is replaced by middle. -/
def spliceInclude (source middle : Str) (i : Nat) : Str :=
  let segs := splitNl source
  let seg := segs.getD i []
  let keep : Str := if i + 1 < segs.length ∧ endsWithCr seg then ['\r'] else []
  intercalateNl (segs.take i ++ [middle ++ keep] ++ segs.drop (i + 1))

/-- Byte offset of line i within a buffer whose newline-split segments are
given: each earlier segment contributes its length plus one separator. -/
def lineStartOffset : List Str → Nat → Nat
  | _, 0 => 0
  | [], _ + 1 => 0
  | seg :: segs, i + 1 => seg.length + 1 + lineStartOffset segs i

/-- A template that can be used to instantiate a VertexState.  The wgpu
entry point and buffer layouts do not influence the cache logic and are
collapsed into one opaque field. -/
structure VertexStateTemplate where
  module_path : Str
  rest : Nat
deriving DecidableEq

/-- A template that can be used to instantiate a FragmentState, with the
wgpu entry point and color targets collapsed into one opaque field. -/
structure FragmentStateTemplate where
  module_path : Str
  rest : Nat
deriving DecidableEq

/-- A template that can be used to instantiate a RenderPipelineDescriptor.
The wgpu fixed-function fields (label, layout, primitive, depth_stencil,
multisample, multiview, cache) do not influence the cache logic and are
collapsed into one opaque field. -/
structure RenderPipelineDescriptorTemplate where
  vertex : VertexStateTemplate
  fragment : Option FragmentStateTemplate
  rest : Nat
deriving DecidableEq

/-- Getter for the vertex and optional fragment module paths
(get_module_paths). -/
def RenderPipelineDescriptorTemplate.get_module_paths
    (t : RenderPipelineDescriptorTemplate) : Str × Option Str :=
  (t.vertex.module_path, t.fragment.map fun x => x.module_path)

/-- Decidable equality for result values. -/
instance {e a : Type} [DecidableEq e] [DecidableEq a] : DecidableEq (Except e a) := fun x y =>
  match x, y with
  | .ok u, .ok v => if h : u = v then .isTrue (by rw [h]) else .isFalse (by simp [h])
  | .error u, .error v => if h : u = v then .isTrue (by rw [h]) else .isFalse (by simp [h])
  | .ok _, .error _ => .isFalse (by simp)
  | .error _, .ok _ => .isFalse (by simp)

/-- The panics of the shader manager, as recoverable error values. -/
inductive Err
  | ambiguous (path : Str)
  | notFound (path : Str)
  | duplicateInclude (include_path : Str) (path : Str)
  | conflicting (path : Str)
  | unknownLabel (label : Str)
  | spliceOffset
  | fuelExhausted
deriving DecidableEq

/-- The state of the ShaderManager, with the modelled filesystem and the
backend instrumentation counters alongside the four tables of the Rust
struct. -/
structure ShaderManager where
  directory_path : Str
  disk : List (Str × Str)
  source_files : List (Str × Str)
  constant_source_files : List (Str × Str)
  shader_modules : List (Str × Nat)
  render_pipelines : List (Str × (RenderPipelineDescriptorTemplate × Option Nat))
  moduleCompiles : Nat
  pipelineLinks : Nat
deriving DecidableEq

namespace ShaderManager

/-- Modelling ShaderManager::new. -/
def new (directory_path : Str) (disk : List (Str × Str)) : ShaderManager :=
  { directory_path := directory_path
    disk := disk
    source_files := []
    constant_source_files := []
    shader_modules := []
    render_pipelines := []
    moduleCompiles := 0
    pipelineLinks := 0 }

/-- Modelling get_file_from_disk: return the cached text if present, else
read the file at the root-relative path, cache it via entry.or_insert on a
hit, and return none on NotFound. -/
def get_file_from_disk (st : ShaderManager) (path : Str) : Option Str × ShaderManager :=
  match alGet st.source_files path with
  | some file => (some file, st)
  | none =>
    match alGet st.disk path with
    | some file => (some file, { st with source_files := alInsertIfAbsent st.source_files path file })
    | none => (none, st)

/-- Modelling get_file_from_constant_source: lookup only. -/
def get_file_from_constant_source (st : ShaderManager) (path : Str) : Option Str :=
  alGet st.constant_source_files path

/-- The resolution match block that appears twice inside get_source_new:
query the disk table then the constant table; exactly one must answer.
The panic messages interpolate the path of the enclosing get_source_new
call, carried here as reportPath. -/
def resolveFragment (st : ShaderManager) (lookupPath reportPath : Str) :
    Except Err Str × ShaderManager :=
  let (disk_source_file, st1) := get_file_from_disk st lookupPath
  let const_source_file := get_file_from_constant_source st1 lookupPath
  match disk_source_file, const_source_file with
  | some s, none => (.ok s, st1)
  | none, some s => (.ok s, st1)
  | some _, some _ => (.error (.ambiguous reportPath), st1)
  | none, none => (.error (.notFound reportPath), st1)

/-- The while-let loop of get_source_new: find the next include directive,
fail if its path was already seen in this call, record it, then build the
spliced buffer and rescan it.  The first spliced piece converts
source.as_ptr().offset_from(line.as_ptr()) — the negation of the directive
line's byte offset — to usize before the include is resolved, so any
directive line that does not start at the beginning of the buffer aborts
right after the duplicate check.  The loop is driven by fuel; the Rust
loop has no such bound. -/
def expandLoop (st : ShaderManager) (path : Str) :
    Nat → Str → List Str → Except Err Str × ShaderManager
  | 0, _, _ => (.error .fuelExhausted, st)
  | fuel + 1, source, includes =>
    match find_next_include source with
    | none => (.ok source, st)
    | some (i, include_path) =>
      if include_path ∈ includes then (.error (.duplicateInclude include_path path), st)
      else if lineStartOffset (splitNl source) i ≠ 0 then (.error .spliceOffset, st)
      else
        match resolveFragment st include_path path with
        | (.error e, st1) => (.error e, st1)
        | (.ok middle, st1) =>
          expandLoop st1 path fuel (spliceInclude source middle i) (include_path :: includes)

/-- Modelling get_source_new: resolve the root fragment, then iteratively
expand each include directive, starting from an empty visited set. -/
def get_source_new (fuel : Nat) (st : ShaderManager) (path : Str) :
    Except Err Str × ShaderManager :=
  match resolveFragment st path path with
  | (.error e, st1) => (.error e, st1)
  | (.ok source, st1) => expandLoop st1 path fuel source []

/-- Modelled from the spec: the expansion loop with the splice of step 5
of include expansion — replace the directive line's byte range with the
resolved fragment verbatim — as the spec and the code's own comments
describe it, without the negated pointer-offset conversion that aborts the
real loop; kept only to state what the program was meant to return where
it aborts. -/
def expandLoopIntended (st : ShaderManager) (path : Str) :
    Nat → Str → List Str → Except Err Str × ShaderManager
  | 0, _, _ => (.error .fuelExhausted, st)
  | fuel + 1, source, includes =>
    match find_next_include source with
    | none => (.ok source, st)
    | some (i, include_path) =>
      if include_path ∈ includes then (.error (.duplicateInclude include_path path), st)
      else
        match resolveFragment st include_path path with
        | (.error e, st1) => (.error e, st1)
        | (.ok middle, st1) =>
          expandLoopIntended st1 path fuel (spliceInclude source middle i) (include_path :: includes)

/-- Modelled from the spec: get_source_new over the intended splice loop. -/
def get_source_new_intended (fuel : Nat) (st : ShaderManager) (path : Str) :
    Except Err Str × ShaderManager :=
  match resolveFragment st path path with
  | (.error e, st1) => (.error e, st1)
  | (.ok source, st1) => expandLoopIntended st1 path fuel source []

/-- Modelling read_and_get_module: get the source string and create a
shader module from it.  The backend create_shader_module call yields the
next fresh handle and bumps the compile counter. -/
def read_and_get_module (fuel : Nat) (st : ShaderManager) (path : Str) :
    Except Err Nat × ShaderManager :=
  match get_source_new fuel st path with
  | (.error e, st1) => (.error e, st1)
  | (.ok _, st1) => (.ok st1.moduleCompiles, { st1 with moduleCompiles := st1.moduleCompiles + 1 })

/-- Modelling get_module: return the cached handle if present; otherwise,
under the write lock, evaluate the argument of entry.or_insert (which
compiles unconditionally) and then insert only if the entry is still
absent, returning the existing handle otherwise. -/
def get_module (fuel : Nat) (st : ShaderManager) (path : Str) :
    Except Err Nat × ShaderManager :=
  match alGet st.shader_modules path with
  | some h => (.ok h, st)
  | none =>
    match read_and_get_module fuel st path with
    | (.error e, st1) => (.error e, st1)
    | (.ok h, st1) =>
      match alGet st1.shader_modules path with
      | some h0 => (.ok h0, st1)
      | none => (.ok h, { st1 with shader_modules := (path, h) :: st1.shader_modules })

/-- Modelling compile_pipeline: get the module paths from the template, get
each module, then link; the backend create_render_pipeline call yields the
next fresh handle and bumps the link counter. -/
def compile_pipeline (fuel : Nat) (st : ShaderManager)
    (template : RenderPipelineDescriptorTemplate) : Except Err Nat × ShaderManager :=
  match get_module fuel st template.get_module_paths.1 with
  | (.error e, st1) => (.error e, st1)
  | (.ok _, st1) =>
    match template.get_module_paths.2 with
    | none => (.ok st1.pipelineLinks, { st1 with pipelineLinks := st1.pipelineLinks + 1 })
    | some fpath =>
      match get_module fuel st1 fpath with
      | (.error e, st2) => (.error e, st2)
      | (.ok _, st2) => (.ok st2.pipelineLinks, { st2 with pipelineLinks := st2.pipelineLinks + 1 })

/-- Stores the freshly linked pipeline for a label, modelling the
Option.get_or_insert_with write in get_render_pipeline. -/
def setPipeline (l : List (Str × (RenderPipelineDescriptorTemplate × Option Nat)))
    (label : Str) (p : Nat) : List (Str × (RenderPipelineDescriptorTemplate × Option Nat)) :=
  l.map fun q => if q.1 = label then (q.1, (q.2.1, some p)) else q

/-- Modelling get_render_pipeline: panic on an unregistered label, return
the cached handle if present, else compile the template's pipeline under
the write lock and cache it. -/
def get_render_pipeline (fuel : Nat) (st : ShaderManager) (label : Str) :
    Except Err Nat × ShaderManager :=
  match alGet st.render_pipelines label with
  | none => (.error (.unknownLabel label), st)
  | some (_, some pipeline) => (.ok pipeline, st)
  | some (template, none) =>
    match compile_pipeline fuel st template with
    | (.error e, st1) => (.error e, st1)
    | (.ok p, st1) => (.ok p, { st1 with render_pipelines := setPipeline st1.render_pipelines label p })

/-- Modelling register_render_pipeline: return if the label is already
registered, else insert the template with no compiled pipeline via
entry.or_insert. -/
def register_render_pipeline (st : ShaderManager) (label : Str)
    (template : RenderPipelineDescriptorTemplate) : ShaderManager :=
  match alGet st.render_pipelines label with
  | some _ => st
  | none =>
    { st with render_pipelines := alInsertIfAbsent st.render_pipelines label (template, none) }

/-- Modelling register_constant_source: no-op when the identical text is
already registered, panic when different text is registered, insert when
the path is new. -/
def register_constant_source (st : ShaderManager) (path : Str) (source : Str) :
    Except Err Unit × ShaderManager :=
  match alGet st.constant_source_files path with
  | some old_source =>
    if old_source = source then (.ok (), st)
    else (.error (.conflicting path), st)
  | none => (.ok (), { st with constant_source_files := (path, source) :: st.constant_source_files })

/-- Modelling reload: clear the disk-backed source table and the module
table, and drop every compiled pipeline while keeping its template. -/
def reload (st : ShaderManager) : ShaderManager :=
  { st with
    source_files := []
    shader_modules := []
    render_pipelines := st.render_pipelines.map fun q => (q.1, (q.2.1, none)) }

end ShaderManager

/-!
Concurrency model for get_module on a single path.  A thread first performs
the optimistic read under the shared lock (phase one); on a miss it takes
the exclusive lock and executes `entry(path).or_insert(Box::new(
self.read_and_get_module(..)))` atomically (phase two): the argument of
or_insert is evaluated first — the backend compiler runs — and only then
does or_insert keep the existing entry or store the new one.  Handles are
identified with the value of the compile counter at the compile that
produced them.
-/

/-- Program counter of one get_module caller. -/
inductive Pc
  | start
  | slow
  | done (h : Nat)
deriving DecidableEq

/-- The shared state: the module cache entry for the path, and the number
of backend compiler runs for it since the last clear. -/
structure CState where
  cache : Option Nat
  compiles : Nat
deriving DecidableEq

/-- One atomic step of a get_module caller.  From start: the shared-lock
read, returning the cached handle on a hit or falling to the slow path.
From slow: under the exclusive lock, compile (the eagerly evaluated
or_insert argument), then insert only if the entry is still vacant,
returning the already-present handle otherwise. -/
def stepThread (c : CState) : Pc → CState × Pc
  | .start =>
    match c.cache with
    | some h => (c, .done h)
    | none => (c, .slow)
  | .slow =>
    let h := c.compiles
    let c1 : CState := { c with compiles := c.compiles + 1 }
    match c1.cache with
    | some h0 => (c1, .done h0)
    | none => ({ c1 with cache := some h }, .done h)
  | .done h => (c, .done h)

/-- Two callers racing on the same path. -/
structure SysState where
  st : CState
  t1 : Pc
  t2 : Pc
deriving DecidableEq

/-- Scheduler step: true advances the first caller, false the second.  A
finished caller idles. -/
def sysStep (s : SysState) (which : Bool) : SysState :=
  if which then
    let p := stepThread s.st s.t1
    { s with st := p.1, t1 := p.2 }
  else
    let p := stepThread s.st s.t2
    { s with st := p.1, t2 := p.2 }

/-- Runs a schedule, one step at a time. -/
def runSched (s : SysState) : List Bool → SysState
  | [] => s
  | b :: bs => runSched (sysStep s b) bs

/-- Both callers arrive at a cold cache (the state right after a clear). -/
def sysInit : SysState := ⟨⟨none, 0⟩, .start, .start⟩

/-- A caller that has not finished can still run one compile. -/
def credit : Pc → Nat
  | .start => 1
  | .slow => 1
  | .done _ => 0

/-- Invariant of the race: at most one outstanding compile per unfinished
caller, and every finished caller holds exactly the cached handle. -/
def raceInv (s : SysState) : Prop :=
  s.st.compiles + credit s.t1 + credit s.t2 ≤ 2 ∧
  (match s.st.cache with
   | none => (∀ h, s.t1 ≠ .done h) ∧ (∀ h, s.t2 ≠ .done h)
   | some h => (∀ h1, s.t1 = .done h1 → h1 = h) ∧ (∀ h2, s.t2 = .done h2 → h2 = h))

/-!
For claim C10, a second scanner definition written from the words of the
claim: the selected line is the first line in which the substring
"#include" occurs followed by an angle-bracket pair, and the extracted
path consists of the characters strictly between the first opening angle
bracket after "#include" and the last closing angle bracket on that line.
It is index-based, in contrast to the split-based source translation, and
is compared with it in the C10 theorem.
-/

/-- Index of the first occurrence of pat as a contiguous substring. -/
def subIdx (pat : Str) : Str → Option Nat
  | [] => if pat = [] then some 0 else none
  | c :: s =>
    if (c :: s).take pat.length = pat then some 0
    else (subIdx pat s).map fun i => i + 1

/-- Least index of character c at or after position start. -/
def charIdxFrom (c : Char) (s : Str) (start : Nat) : Option Nat :=
  (subIdx [c] (s.drop start)).map fun j => j + start

/-- Greatest index at which character c occurs. -/
def lastCharIdx (c : Char) : Str → Option Nat
  | [] => none
  | x :: s =>
    match lastCharIdx c s with
    | some k => some (k + 1)
    | none => if x = c then some 0 else none

/-- Claim C10's description of one line: find the first occurrence of
"#include" anywhere in the line, the first opening angle bracket after it,
and the last closing angle bracket on the line; when the bracket pair
exists in that order, the path is the characters strictly between the two
brackets, and otherwise the line is skipped. -/
def spec_lineDirective (line : Str) : Option Str :=
  match subIdx incPat line with
  | none => none
  | some i =>
    match charIdxFrom '<' line (i + incPat.length) with
    | none => none
    | some j =>
      match lastCharIdx '>' line with
      | none => none
      | some k =>
        if j < k then some ((line.drop (j + 1)).take (k - (j + 1))) else none

/-- First line (with its index) accepted by the claim's description. -/
def spec_firstDirective : Nat → List Str → Option (Nat × Str)
  | _, [] => none
  | i, l :: ls =>
    match spec_lineDirective l with
    | some p => some (i, p)
    | none => spec_firstDirective (i + 1) ls

/-- The scanner as described by claim C10. -/
def spec_find_next_include (input : Str) : Option (Nat × Str) :=
  spec_firstDirective 0 (rustLines input)

/-- The directive extraction without the two trims, a bridge between the
split-based and the index-based descriptions. -/
def rawDirective (line : Str) : Option Str :=
  match splitOnceP incPat line with
  | none => none
  | some p => extractPath p.2

/-!
Concrete states used by the witnesses and the concrete claims.
-/

/-- A manager with no disk files and no registrations. -/
def sm0 : ShaderManager := ShaderManager.new "".data []

/-- Embedded fragments A and B of the include-expansion example. -/
def smC1 : ShaderManager :=
  (ShaderManager.register_constant_source
    (ShaderManager.register_constant_source sm0 "A".data "x\n#include <B>\ny".data).2
    "B".data "b-content".data).2

/-- Embedded fragments A and B that include each other. -/
def smC6 : ShaderManager :=
  (ShaderManager.register_constant_source
    (ShaderManager.register_constant_source sm0 "A".data "#include <B>".data).2
    "B".data "#include <A>".data).2

/-- A manager whose path P is both a disk file and an embedded fragment. -/
def smBoth : ShaderManager :=
  (ShaderManager.register_constant_source
    (ShaderManager.new "".data [("P".data, "disk-text".data)]) "P".data "embedded-text".data).2

/-- A pipeline template whose vertex module is fragment B — a fragment
without include directives, so its expansion does not reach the aborting
splice — and which has no fragment module. -/
def tmplB : RenderPipelineDescriptorTemplate :=
  { vertex := { module_path := "B".data, rest := 0 }, fragment := none, rest := 0 }

/-- The example manager with the pipeline P registered over template
tmplB. -/
def smC4 : ShaderManager := ShaderManager.register_render_pipeline smC1 "P".data tmplB

/-- The example manager after pipeline P has been compiled once. -/
def smC4w : ShaderManager := (ShaderManager.get_render_pipeline 10 smC4 "P".data).2

/-- State relation of source resolution: every field except the disk-source
cache is left unchanged. -/
def onlySources (st st1 : ShaderManager) : Prop :=
  st1.directory_path = st.directory_path ∧ st1.disk = st.disk ∧
  st1.constant_source_files = st.constant_source_files ∧
  st1.shader_modules = st.shader_modules ∧
  st1.render_pipelines = st.render_pipelines ∧
  st1.moduleCompiles = st.moduleCompiles ∧
  st1.pipelineLinks = st.pipelineLinks

theorem onlySources_refl (st : ShaderManager) : onlySources st st :=
  ⟨rfl, rfl, rfl, rfl, rfl, rfl, rfl⟩

theorem onlySources_trans {a b c : ShaderManager}
    (h1 : onlySources a b) (h2 : onlySources b c) : onlySources a c := by
  obtain ⟨x1, x2, x3, x4, x5, x6, x7⟩ := h1
  obtain ⟨y1, y2, y3, y4, y5, y6, y7⟩ := h2
  exact ⟨y1.trans x1, y2.trans x2, y3.trans x3, y4.trans x4, y5.trans x5, y6.trans x6, y7.trans x7⟩

theorem get_file_from_disk_onlySources (st : ShaderManager) (path : Str) :
    onlySources st (ShaderManager.get_file_from_disk st path).2 := by
  unfold ShaderManager.get_file_from_disk
  rcases h1 : alGet st.source_files path with _ | f
  · rcases h2 : alGet st.disk path with _ | f2 <;>
      simp [h1, h2, onlySources]
  · simp [h1, onlySources]

theorem resolveFragment_onlySources (st : ShaderManager) (lp rp : Str) :
    onlySources st (ShaderManager.resolveFragment st lp rp).2 := by
  have hd := get_file_from_disk_onlySources st lp
  unfold ShaderManager.resolveFragment
  rcases h : ShaderManager.get_file_from_disk st lp with ⟨d, st1⟩
  rw [h] at hd
  rcases d with _ | s <;>
    rcases h2 : ShaderManager.get_file_from_constant_source st1 lp with _ | s2 <;>
      simp [h2, hd]

theorem expandLoop_onlySources (path : Str) :
    ∀ (fuel : Nat) (st : ShaderManager) (source : Str) (includes : List Str),
      onlySources st (ShaderManager.expandLoop st path fuel source includes).2 := by
  intro fuel
  induction fuel with
  | zero => intro st source includes; exact onlySources_refl st
  | succ fuel ih =>
    intro st source includes
    unfold ShaderManager.expandLoop
    rcases h1 : find_next_include source with _ | ⟨i, inc⟩
    · exact onlySources_refl st
    · by_cases h2 : inc ∈ includes
      · simp [h2]; exact onlySources_refl st
      · by_cases h2b : lineStartOffset (splitNl source) i = 0
        · have hr := resolveFragment_onlySources st inc path
          rcases h3 : ShaderManager.resolveFragment st inc path with ⟨r, st1⟩
          rw [h3] at hr
          rcases r with e | middle
          · simp [h2, h2b, h3]; exact hr
          · simp [h2, h2b, h3]
            exact onlySources_trans hr (ih st1 (spliceInclude source middle i) (inc :: includes))
        · simp [h2, h2b]; exact onlySources_refl st

theorem get_source_new_onlySources (fuel : Nat) (st : ShaderManager) (path : Str) :
    onlySources st (ShaderManager.get_source_new fuel st path).2 := by
  unfold ShaderManager.get_source_new
  have hr := resolveFragment_onlySources st path path
  rcases h : ShaderManager.resolveFragment st path path with ⟨r, st1⟩
  rw [h] at hr
  rcases r with e | source
  · exact hr
  · exact onlySources_trans hr (expandLoop_onlySources path fuel st1 source [])

theorem read_and_get_module_state (fuel : Nat) (st : ShaderManager) (path : Str) :
    (ShaderManager.read_and_get_module fuel st path).2.shader_modules = st.shader_modules ∧
    (ShaderManager.read_and_get_module fuel st path).2.render_pipelines = st.render_pipelines ∧
    (ShaderManager.read_and_get_module fuel st path).2.pipelineLinks = st.pipelineLinks ∧
    (ShaderManager.read_and_get_module fuel st path).2.constant_source_files = st.constant_source_files ∧
    (ShaderManager.read_and_get_module fuel st path).2.disk = st.disk := by
  unfold ShaderManager.read_and_get_module
  have hs := get_source_new_onlySources fuel st path
  rcases h : ShaderManager.get_source_new fuel st path with ⟨r, st1⟩
  rw [h] at hs
  obtain ⟨x1, x2, x3, x4, x5, x6, x7⟩ := hs
  simp only at x1 x2 x3 x4 x5 x6 x7
  rcases r with e | text <;> simp [x3, x4, x5, x7, x2]

theorem read_and_get_module_ok {fuel : Nat} {st : ShaderManager} {path : Str} {h : Nat}
    {st1 : ShaderManager}
    (hok : ShaderManager.read_and_get_module fuel st path = (.ok h, st1)) :
    h = st.moduleCompiles ∧ st1.moduleCompiles = st.moduleCompiles + 1 := by
  unfold ShaderManager.read_and_get_module at hok
  have hs := get_source_new_onlySources fuel st path
  rcases h2 : ShaderManager.get_source_new fuel st path with ⟨r, stA⟩
  rw [h2] at hok hs
  obtain ⟨x1, x2, x3, x4, x5, x6, x7⟩ := hs
  simp only at x1 x2 x3 x4 x5 x6 x7
  rcases r with e | text
  · simp at hok
  · simp at hok
    obtain ⟨hh, hst⟩ := hok
    subst hst
    simp [← hh, x6]

theorem get_module_preserves (fuel : Nat) (st : ShaderManager) (path : Str) :
    (ShaderManager.get_module fuel st path).2.render_pipelines = st.render_pipelines ∧
    (ShaderManager.get_module fuel st path).2.pipelineLinks = st.pipelineLinks ∧
    (ShaderManager.get_module fuel st path).2.constant_source_files = st.constant_source_files ∧
    (ShaderManager.get_module fuel st path).2.disk = st.disk := by
  unfold ShaderManager.get_module
  rcases h1 : alGet st.shader_modules path with _ | hmod
  · have hp := read_and_get_module_state fuel st path
    rcases h2 : ShaderManager.read_and_get_module fuel st path with ⟨r, st1⟩
    rw [h2] at hp
    obtain ⟨p1, p2, p3, p4, p5⟩ := hp
    simp only at p1 p2 p3 p4 p5
    rcases r with e | hNew
    · simp [p2, p3, p4, p5]
    · rcases h3 : alGet st1.shader_modules path with _ | h0 <;>
        simp [h3, p2, p3, p4, p5]
  · simp

/-- Claim C1 names a behavior the program does not have: with fragment A
registered as the text x, newline, an include directive naming B, newline,
y, and fragment B registered as b-content, the spec requires expanding A to
return exactly x, newline, b-content, newline, y, but the program aborts
instead: the first spliced piece converts the negated byte offset of the
directive line — here line two, offset two — to usize and the conversion
fails, while the splice as the spec and the code's own comments intend it
returns precisely the claimed text. -/
theorem c1_splice_offset_bug :
    (ShaderManager.get_source_new 10 smC1 "A".data).1 = .error .spliceOffset ∧
    (ShaderManager.get_source_new_intended 10 smC1 "A".data).1 =
      .ok "x\nb-content\ny".data := by
  constructor
  · decide
  · decide

/-- Claim C6: inside one expansion call every include path found is checked
against, then added to, the visited set of that call, and a repeated path
aborts the expansion with a duplicate-include error; in particular, for
fragments A and B that each include the other, expanding A fails with that
error instead of looping. -/
theorem c6_cycle_detection :
    (∀ (st : ShaderManager) (path : Str) (fuel : Nat) (source : Str) (includes : List Str)
        (i : Nat) (inc : Str),
        find_next_include source = some (i, inc) → inc ∈ includes →
        ShaderManager.expandLoop st path (fuel + 1) source includes =
          (.error (.duplicateInclude inc path), st)) ∧
    (ShaderManager.get_source_new 10 smC6 "A".data).1 =
      .error (.duplicateInclude "B".data "A".data) := by
  constructor
  · intro st path fuel source includes i inc h1 h2
    unfold ShaderManager.expandLoop
    simp [h1, h2]
  · decide

/-- Witness for C6's general conjunct, at the second scan of the cyclic
example where the include path B is already in the visited set. -/
theorem c6_witness :
    ShaderManager.expandLoop smC6 "A".data 1 "#include <B>".data ["B".data] =
      (.error (.duplicateInclude "B".data "A".data), smC6) :=
  c6_cycle_detection.1 smC6 "A".data 0 "#include <B>".data ["B".data] 0 "B".data
    (by decide) (by decide)

/-- Claim C7: requesting a pipeline for a label that was never registered
fails immediately with an unknown-label error, the state is untouched, and
in particular neither the backend compiler nor the backend linker runs. -/
theorem c7_unknown_label (fuel : Nat) (st : ShaderManager) (label : Str)
    (h : alGet st.render_pipelines label = none) :
    ShaderManager.get_render_pipeline fuel st label = (.error (.unknownLabel label), st) ∧
    (ShaderManager.get_render_pipeline fuel st label).2.moduleCompiles = st.moduleCompiles ∧
    (ShaderManager.get_render_pipeline fuel st label).2.pipelineLinks = st.pipelineLinks := by
  unfold ShaderManager.get_render_pipeline
  simp [h]

/-- Witness for C7 on the empty manager and the label missing. -/
theorem c7_witness :
    ShaderManager.get_render_pipeline 1 sm0 "missing".data =
      (.error (.unknownLabel "missing".data), sm0) :=
  (c7_unknown_label 1 sm0 "missing".data (by decide)).1

/-- Claim C8: registering an embedded source is a no-op when the identical
text is already registered at the path, fails with a conflicting-source
error without touching the table when different text is registered there,
and inserts the text when the path is unregistered. -/
theorem c8_register_embedded (st : ShaderManager) (path source : Str) :
    (alGet st.constant_source_files path = some source →
      ShaderManager.register_constant_source st path source = (.ok (), st)) ∧
    (∀ old, alGet st.constant_source_files path = some old → old ≠ source →
      ShaderManager.register_constant_source st path source = (.error (.conflicting path), st)) ∧
    (alGet st.constant_source_files path = none →
      ShaderManager.register_constant_source st path source =
        (.ok (), { st with constant_source_files := (path, source) :: st.constant_source_files }) ∧
      alGet (ShaderManager.register_constant_source st path source).2.constant_source_files path =
        some source) := by
  refine ⟨?_, ?_, ?_⟩
  · intro h
    unfold ShaderManager.register_constant_source
    simp [h]
  · intro old h hne
    unfold ShaderManager.register_constant_source
    simp [h, hne]
  · intro h
    unfold ShaderManager.register_constant_source
    simp [h, alGet]

/-- Witness for C8: the three cases at concrete tables. -/
theorem c8_witness :
    ShaderManager.register_constant_source smC6 "B".data "#include <A>".data = (.ok (), smC6) ∧
    ShaderManager.register_constant_source smC6 "B".data "other".data =
      (.error (.conflicting "B".data), smC6) ∧
    ShaderManager.register_constant_source smC6 "C".data "new".data =
      (.ok (), { smC6 with
        constant_source_files := ("C".data, "new".data) :: smC6.constant_source_files }) :=
  ⟨(c8_register_embedded smC6 "B".data "#include <A>".data).1 (by decide),
   (c8_register_embedded smC6 "B".data "other".data).2.1 "#include <A>".data
     (by decide) (by decide),
   ((c8_register_embedded smC6 "C".data "new".data).2.2 (by decide)).1⟩

/-- Claim C9: registering a pipeline template under an unregistered label
stores the pair of the template and no compiled pipeline; registering under
an already-registered label is a no-op that leaves the whole state, hence
the stored template and any cached pipeline, unchanged, whether or not the
new template differs from the stored one. -/
theorem c9_register_pipeline (st : ShaderManager) (label : Str)
    (template : RenderPipelineDescriptorTemplate) :
    (∀ q, alGet st.render_pipelines label = some q →
      ShaderManager.register_render_pipeline st label template = st) ∧
    (alGet st.render_pipelines label = none →
      ShaderManager.register_render_pipeline st label template =
        { st with render_pipelines := (label, (template, none)) :: st.render_pipelines }) := by
  constructor
  · intro q h
    unfold ShaderManager.register_render_pipeline
    simp [h]
  · intro h
    unfold ShaderManager.register_render_pipeline
    simp [h, alInsertIfAbsent]

/-- Witness for C9: re-registering P with a different template is a no-op,
and registering a fresh label Q inserts the template with no pipeline. -/
theorem c9_witness :
    ShaderManager.register_render_pipeline smC4 "P".data
      { vertex := { module_path := "A".data, rest := 7 }, fragment := none, rest := 7 } = smC4 ∧
    ShaderManager.register_render_pipeline smC4 "Q".data tmplB =
      { smC4 with render_pipelines := ("Q".data, (tmplB, none)) :: smC4.render_pipelines } :=
  ⟨(c9_register_pipeline smC4 "P".data
      { vertex := { module_path := "A".data, rest := 7 }, fragment := none, rest := 7 }).1
      (tmplB, none) (by decide),
   (c9_register_pipeline smC4 "Q".data tmplB).2 (by decide)⟩

/-- Claim C3: starting from a state where the path has no cached module,
a successful get_module call compiles once, and an immediately following
get_module call with no reload in between returns the same handle from the
cache without running the compiler or changing the state. -/
theorem c3_cache_coherency (fuel : Nat) (st : ShaderManager) (path : Str) (h : Nat)
    (st1 : ShaderManager)
    (hcold : alGet st.shader_modules path = none)
    (hok : ShaderManager.get_module fuel st path = (.ok h, st1)) :
    ShaderManager.get_module fuel st1 path = (.ok h, st1) ∧
    st1.moduleCompiles = st.moduleCompiles + 1 := by
  unfold ShaderManager.get_module at hok
  rw [hcold] at hok
  have hp := read_and_get_module_state fuel st path
  rcases h2 : ShaderManager.read_and_get_module fuel st path with ⟨r, stA⟩
  rw [h2] at hok hp
  obtain ⟨p1, p2, p3, p4, p5⟩ := hp
  simp only at p1 p2 p3 p4 p5
  rcases r with e | hNew
  · simp at hok
  · have hrecheck : alGet stA.shader_modules path = none := by rw [p1]; exact hcold
    simp [hrecheck] at hok
    obtain ⟨hh, hst⟩ := hok
    have hmc := read_and_get_module_ok h2
    constructor
    · unfold ShaderManager.get_module
      rw [← hst]
      simp [alGet, hh]
    · rw [← hst]
      simp [hmc.2]

/-- Witness for C3 at the embedded fragment B of the example manager, a
fragment without include directives. -/
theorem c3_witness :
    ShaderManager.get_module 10 (ShaderManager.get_module 10 smC1 "B".data).2 "B".data =
      (.ok 0, (ShaderManager.get_module 10 smC1 "B".data).2) ∧
    (ShaderManager.get_module 10 smC1 "B".data).2.moduleCompiles = smC1.moduleCompiles + 1 :=
  c3_cache_coherency 10 smC1 "B".data 0 (ShaderManager.get_module 10 smC1 "B".data).2
    (by decide) (by decide)

/-- Claim C5: resolution of a path, as performed at the start of
get_source_new and for every include during expansion, fails with an
ambiguous-fragment error when both the disk-backed lookup and the embedded
lookup return text, fails with a missing-fragment error when neither does,
and succeeds exactly when one of the two returns text. -/
theorem c5_ambiguity_detection (fuel : Nat) (st : ShaderManager) (path : Str) :
    ((ShaderManager.get_file_from_disk st path).1.isSome →
      (ShaderManager.get_file_from_constant_source st path).isSome →
      (ShaderManager.get_source_new fuel st path).1 = .error (.ambiguous path) ∧
      (alGet st.shader_modules path = none →
        (ShaderManager.get_module fuel st path).1 = .error (.ambiguous path))) ∧
    ((ShaderManager.get_file_from_disk st path).1 = none →
      ShaderManager.get_file_from_constant_source st path = none →
      (ShaderManager.get_source_new fuel st path).1 = .error (.notFound path)) ∧
    ((∃ s st1, ShaderManager.resolveFragment st path path = (.ok s, st1)) ↔
      (((ShaderManager.get_file_from_disk st path).1.isSome ∧
          ShaderManager.get_file_from_constant_source st path = none) ∨
        ((ShaderManager.get_file_from_disk st path).1 = none ∧
          (ShaderManager.get_file_from_constant_source st path).isSome))) := by
  have hd := get_file_from_disk_onlySources st path
  rcases hdisk : ShaderManager.get_file_from_disk st path with ⟨d, stD⟩
  rw [hdisk] at hd
  have hconst : ShaderManager.get_file_from_constant_source stD path =
      ShaderManager.get_file_from_constant_source st path := by
    unfold ShaderManager.get_file_from_constant_source
    rw [hd.2.2.1]
  rcases hc : ShaderManager.get_file_from_constant_source st path with _ | s2 <;>
    rcases d with _ | s
  · have hres : ShaderManager.resolveFragment st path path = (.error (.notFound path), stD) := by
      simp [ShaderManager.resolveFragment, hdisk, hconst, hc]
    refine ⟨?_, ?_, ?_⟩
    · intro h1; simp at h1
    · intro _ _
      unfold ShaderManager.get_source_new
      rw [hres]
    · rw [hres]; simp
  · have hres : ShaderManager.resolveFragment st path path = (.ok s, stD) := by
      simp [ShaderManager.resolveFragment, hdisk, hconst, hc]
    refine ⟨?_, ?_, ?_⟩
    · intro _ h2; simp at h2
    · intro h1; simp at h1
    · rw [hres]; simp
  · have hres : ShaderManager.resolveFragment st path path = (.ok s2, stD) := by
      simp [ShaderManager.resolveFragment, hdisk, hconst, hc]
    refine ⟨?_, ?_, ?_⟩
    · intro h1; simp at h1
    · intro _ h2; simp at h2
    · rw [hres]; simp
  · have hres : ShaderManager.resolveFragment st path path =
        (.error (.ambiguous path), stD) := by
      simp [ShaderManager.resolveFragment, hdisk, hconst, hc]
    refine ⟨?_, ?_, ?_⟩
    · intro _ _
      constructor
      · unfold ShaderManager.get_source_new
        rw [hres]
      · intro hcold
        unfold ShaderManager.get_module ShaderManager.read_and_get_module
          ShaderManager.get_source_new
        rw [hcold, hres]
    · intro h1; simp at h1
    · rw [hres]; simp

/-- Witness for C5: the manager whose path P is both on disk and embedded
yields the ambiguous error from get_source_new and get_module, the empty
manager yields the missing error, and resolution of the embedded-only
fragment A succeeds. -/
theorem c5_witness :
    ((ShaderManager.get_source_new 5 smBoth "P".data).1 = .error (.ambiguous "P".data) ∧
      (ShaderManager.get_module 5 smBoth "P".data).1 = .error (.ambiguous "P".data)) ∧
    (ShaderManager.get_source_new 5 sm0 "P".data).1 = .error (.notFound "P".data) ∧
    (∃ s st1, ShaderManager.resolveFragment smC1 "A".data "A".data = (.ok s, st1)) := by
  refine ⟨?_, ?_, ?_⟩
  · have h := (c5_ambiguity_detection 5 smBoth "P".data).1 (by decide) (by decide)
    exact ⟨h.1, h.2 (by decide)⟩
  · exact (c5_ambiguity_detection 5 sm0 "P".data).2.1 (by decide) (by decide)
  · exact ((c5_ambiguity_detection 5 smC1 "A".data).2.2).2
      (by right; constructor <;> decide)

theorem alGet_map {α β : Type} (f : α → β) (l : List (Str × α)) (k : Str) :
    alGet (l.map fun q => (q.1, f q.2)) k = (alGet l k).map f := by
  induction l with
  | nil => rfl
  | cons p rest ih =>
    by_cases h : p.1 = k <;> simp [alGet, h, ih]

theorem compile_pipeline_ok {fuel : Nat} {st : ShaderManager}
    {t : RenderPipelineDescriptorTemplate} {p : Nat} {st2 : ShaderManager}
    (h : ShaderManager.compile_pipeline fuel st t = (.ok p, st2)) :
    p = st.pipelineLinks ∧ st2.pipelineLinks = st.pipelineLinks + 1 ∧
    st2.render_pipelines = st.render_pipelines ∧
    st2.constant_source_files = st.constant_source_files := by
  unfold ShaderManager.compile_pipeline at h
  have g1 := get_module_preserves fuel st t.get_module_paths.1
  rcases hm : ShaderManager.get_module fuel st t.get_module_paths.1 with ⟨r1, s1⟩
  rw [hm] at h g1
  obtain ⟨g11, g12, g13, g14⟩ := g1
  simp only at g11 g12 g13 g14
  rcases r1 with e | h1
  · simp at h
  · rcases hf : t.get_module_paths.2 with _ | fpath <;> rw [hf] at h
    · simp at h
      obtain ⟨hp, hst⟩ := h
      subst hst
      simp [← hp, g11, g12, g13]
    · simp only at h
      have g2 := get_module_preserves fuel s1 fpath
      rcases hm2 : ShaderManager.get_module fuel s1 fpath with ⟨r2, s2⟩
      rw [hm2] at h g2
      obtain ⟨g21, g22, g23, g24⟩ := g2
      simp only at g21 g22 g23 g24
      rcases r2 with e | h2
      · simp at h
      · simp at h
        obtain ⟨hp, hst⟩ := h
        subst hst
        simp [← hp, g11, g12, g13, g21, g22, g23]

/-- Claim C4: reload clears the disk-backed fragment table, the compiled
module table and every cached pipeline handle, while keeping every embedded
fragment and every label-to-template registration; consequently a label
registered before the reload is still registered afterwards, and provided
its template's modules resolve, requesting its pipeline succeeds and links
a fresh handle. -/
theorem c4_reload_template_persistence (fuel : Nat) (st : ShaderManager) (label : Str)
    (t : RenderPipelineDescriptorTemplate) (old : Option Nat) (p : Nat) (st2 : ShaderManager)
    (hreg : alGet st.render_pipelines label = some (t, old))
    (hcomp : ShaderManager.compile_pipeline fuel (ShaderManager.reload st) t = (.ok p, st2)) :
    (ShaderManager.reload st).source_files = [] ∧
    (ShaderManager.reload st).shader_modules = [] ∧
    (ShaderManager.reload st).constant_source_files = st.constant_source_files ∧
    (∀ l, alGet (ShaderManager.reload st).render_pipelines l =
      (alGet st.render_pipelines l).map fun q => (q.1, none)) ∧
    ShaderManager.get_render_pipeline fuel (ShaderManager.reload st) label =
      (.ok p, { st2 with render_pipelines := ShaderManager.setPipeline st2.render_pipelines label p }) ∧
    p = st.pipelineLinks ∧
    st2.pipelineLinks = st.pipelineLinks + 1 := by
  have hmap : ∀ l, alGet (ShaderManager.reload st).render_pipelines l =
      (alGet st.render_pipelines l).map fun q => (q.1, none) := by
    intro l
    exact alGet_map (fun v => (v.1, none)) st.render_pipelines l
  have h1 : alGet (ShaderManager.reload st).render_pipelines label = some (t, none) := by
    rw [hmap label, hreg]; rfl
  have hc := compile_pipeline_ok hcomp
  refine ⟨rfl, rfl, rfl, hmap, ?_, ?_, ?_⟩
  · unfold ShaderManager.get_render_pipeline
    rw [h1]
    simp only
    rw [hcomp]
  · exact hc.1
  · exact hc.2.1

/-- Witness for C4 on the warmed example manager: the pipeline P was linked
once (handle 0); after reload it is still registered, its request succeeds
and links the fresh handle 1. -/
theorem c4_witness :
    (ShaderManager.reload smC4w).source_files = [] ∧
    (ShaderManager.reload smC4w).shader_modules = [] ∧
    (ShaderManager.reload smC4w).constant_source_files = smC4w.constant_source_files ∧
    ShaderManager.get_render_pipeline 10 (ShaderManager.reload smC4w) "P".data =
      (.ok 1, { (ShaderManager.compile_pipeline 10 (ShaderManager.reload smC4w) tmplB).2 with
        render_pipelines := ShaderManager.setPipeline
          (ShaderManager.compile_pipeline 10 (ShaderManager.reload smC4w) tmplB).2.render_pipelines
          "P".data 1 }) ∧
    (1 : Nat) = smC4w.pipelineLinks := by
  have h := c4_reload_template_persistence 10 smC4w "P".data tmplB (some 0) 1
    (ShaderManager.compile_pipeline 10 (ShaderManager.reload smC4w) tmplB).2
    (by decide) (by decide)
  exact ⟨h.1, h.2.1, h.2.2.1, h.2.2.2.2.1, h.2.2.2.2.2.1⟩

theorem raceInv_init : raceInv sysInit := by
  constructor
  · decide
  · exact ⟨fun h => by simp [sysInit], fun h => by simp [sysInit]⟩

theorem raceInv_step (s : SysState) (b : Bool) (h : raceInv s) : raceInv (sysStep s b) := by
  obtain ⟨hcnt, hcache⟩ := h
  rcases s with ⟨⟨cache, compiles⟩, t1, t2⟩
  rcases b <;> rcases t1 with _ | _ | h1 <;> rcases t2 with _ | _ | h2 <;>
    rcases cache with _ | hc <;>
      simp_all [sysStep, stepThread, raceInv, credit] <;> omega

theorem raceInv_run (s : SysState) (sched : List Bool) (h : raceInv s) :
    raceInv (runSched s sched) := by
  induction sched generalizing s with
  | nil => exact h
  | cons b bs ih => exact ih (sysStep s b) (raceInv_step s b h)

/-- Counterexample to claim C2: in the race model of get_module, the
schedule in which both callers pass the optimistic read before either takes
the write lock ends with the backend compiler having run twice between two
clears, because the argument of entry.or_insert is evaluated before the
occupancy re-check; both callers nevertheless finish with the stored handle
and the claimed at-most-once bound fails. -/
theorem c2_compiles_twice_counterexample :
    (runSched sysInit [true, false, true, false]).st.compiles = 2 ∧
    (runSched sysInit [true, false, true, false]).t1 = .done 0 ∧
    (runSched sysInit [true, false, true, false]).t2 = .done 0 ∧
    ¬ (runSched sysInit [true, false, true, false]).st.compiles ≤ 1 := by
  refine ⟨by decide, by decide, by decide, by decide⟩

/-- Claim C2 as amended: two callers racing on the same cold miss serialize
on the exclusive lock and both finish with the single stored handle, and
the backend compiler runs at most once per caller — hence at most twice,
not at most once as claimed. -/
theorem c2_amended_race (sched : List Bool) :
    (runSched sysInit sched).st.compiles ≤ 2 ∧
    (∀ h1 h2, (runSched sysInit sched).t1 = .done h1 →
      (runSched sysInit sched).t2 = .done h2 → h1 = h2) := by
  have h := raceInv_run sysInit sched raceInv_init
  obtain ⟨hcnt, hcache⟩ := h
  constructor
  · omega
  · intro h1 h2 e1 e2
    rcases hc : (runSched sysInit sched).st.cache with _ | hv
    · rw [hc] at hcache
      exact absurd e1 (hcache.1 h1)
    · rw [hc] at hcache
      rw [hcache.1 h1 e1, hcache.2 h2 e2]

/-- Witness for the amended C2 at the fully racing schedule. -/
theorem c2_amended_witness :
    (runSched sysInit [true, false, true, false]).st.compiles ≤ 2 ∧ (0 : Nat) = 0 :=
  ⟨(c2_amended_race [true, false, true, false]).1,
   (c2_amended_race [true, false, true, false]).2 0 0 (by decide) (by decide)⟩

theorem splitOnceP_eq_subIdx (pat : Str) (s : Str) :
    splitOnceP pat s = (subIdx pat s).map fun i => (s.take i, s.drop (i + pat.length)) := by
  induction s with
  | nil =>
    by_cases h : pat = [] <;> simp [splitOnceP, subIdx, h]
  | cons c s ih =>
    by_cases h : (c :: s).take pat.length = pat
    · simp [splitOnceP, subIdx, h]
    · simp only [splitOnceP, subIdx, h, if_false, ih]
      cases subIdx pat s with
      | none => simp
      | some i =>
        simp [List.take_succ_cons, List.drop_succ_cons, Nat.add_right_comm i 1 pat.length]

theorem rsplitOnceC_eq_lastCharIdx (c : Char) (s : Str) :
    rsplitOnceC c s = (lastCharIdx c s).map fun k => (s.take k, s.drop (k + 1)) := by
  induction s with
  | nil => rfl
  | cons x s ih =>
    simp only [rsplitOnceC, lastCharIdx, ih]
    cases h : lastCharIdx c s with
    | some k => simp
    | none => by_cases hx : x = c <;> simp [hx]

theorem subIdx_bound {pat s : Str} {i : Nat} (h : subIdx pat s = some i) :
    i + pat.length ≤ s.length := by
  induction s generalizing i with
  | nil =>
    by_cases hp : pat = []
    · subst hp; simp [subIdx] at h; simp [h]
    · simp [subIdx, hp] at h
  | cons c s ih =>
    by_cases ht : (c :: s).take pat.length = pat
    · simp [subIdx, ht] at h
      subst h
      have := congrArg List.length ht
      simp [List.length_take] at this
      simp only [List.length_cons]
      omega
    · simp [subIdx, ht] at h
      obtain ⟨j, hj, hij⟩ := h
      have := ih hj
      simp [← hij]
      omega

theorem lastCharIdx_bound {c : Char} {s : Str} {k : Nat} (h : lastCharIdx c s = some k) :
    k < s.length := by
  induction s generalizing k with
  | nil => simp [lastCharIdx] at h
  | cons x s ih =>
    simp only [lastCharIdx] at h
    cases h2 : lastCharIdx c s with
    | some j =>
      rw [h2] at h
      simp at h
      have := ih h2
      simp [← h]
      omega
    | none =>
      rw [h2] at h
      by_cases hx : x = c <;> simp [hx] at h
      simp [← h]

theorem lastCharIdx_append (c : Char) (u v : Str) :
    lastCharIdx c (u ++ v) =
      match lastCharIdx c v with
      | some k => some (u.length + k)
      | none => lastCharIdx c u := by
  induction u with
  | nil =>
    cases h : lastCharIdx c v with
    | some k => simp [h]
    | none => simp [h, lastCharIdx]
  | cons x u ih =>
    have hstep : lastCharIdx c ((x :: u) ++ v) =
        match lastCharIdx c (u ++ v) with
        | some k => some (k + 1)
        | none => if x = c then some 0 else none := rfl
    rw [hstep, ih]
    cases h : lastCharIdx c v with
    | some k =>
      simp
      omega
    | none => rfl

theorem take_eq_head_mem {pat : Str} {c : Char} {t : Str}
    (hne : pat ≠ []) (h : (c :: t).take pat.length = pat) : c ∈ pat := by
  rcases pat with _ | ⟨p0, pr⟩
  · exact absurd rfl hne
  · rw [List.length_cons, List.take_succ_cons] at h
    rw [← h]
    exact List.mem_cons_self c _

theorem splitOnceP_none_of_disjoint {pat : Str} (hne : pat ≠ []) :
    ∀ {t : Str}, (∀ a ∈ t, a ∉ pat) → splitOnceP pat t = none := by
  intro t
  induction t with
  | nil => intro _; simp [splitOnceP, hne]
  | cons c t ih =>
    intro hdisj
    have htest : ¬ ((c :: t).take pat.length = pat) := fun h =>
      hdisj c (List.mem_cons_self c t) (take_eq_head_mem hne h)
    simp [splitOnceP, htest, ih fun a ha => hdisj a (List.mem_cons_of_mem c ha)]

theorem splitOnceP_ws_front {pat lw : Str} (hne : pat ≠ []) (hdisj : ∀ a ∈ lw, a ∉ pat)
    (s : Str) : splitOnceP pat (lw ++ s) = (splitOnceP pat s).map fun p => (lw ++ p.1, p.2) := by
  induction lw with
  | nil => cases h : splitOnceP pat s <;> simp [h]
  | cons c lw ih =>
    have htest : ¬ ((c :: (lw ++ s)).take pat.length = pat) := fun h =>
      hdisj c (List.mem_cons_self c lw) (take_eq_head_mem hne h)
    rw [List.cons_append]
    simp only [splitOnceP, htest, if_false]
    rw [ih fun a ha => hdisj a (List.mem_cons_of_mem c ha)]
    cases splitOnceP pat s <;> simp

theorem splitOnceP_ws_suffix {pat tw : Str} (hne : pat ≠ []) (hdisj : ∀ a ∈ tw, a ∉ pat)
    (s : Str) : splitOnceP pat (s ++ tw) = (splitOnceP pat s).map fun p => (p.1, p.2 ++ tw) := by
  induction s with
  | nil =>
    simp only [List.nil_append, splitOnceP, hne, if_false]
    rw [splitOnceP_none_of_disjoint hne hdisj]
    rfl
  | cons c s ih =>
    by_cases h : (c :: s).take pat.length = pat
    · have hlen : pat.length ≤ (c :: s).length := by
        have := congrArg List.length h
        simp [List.length_take] at this
        simp only [List.length_cons]
        omega
      have h2 : ((c :: s) ++ tw).take pat.length = pat := by
        rw [List.take_append_of_le_length hlen, h]
      rw [List.cons_append]
      rw [show splitOnceP pat (c :: (s ++ tw)) =
        if (c :: (s ++ tw)).take pat.length = pat
        then some ([], (c :: (s ++ tw)).drop pat.length)
        else (splitOnceP pat (s ++ tw)).map fun p => (c :: p.1, p.2) from rfl]
      rw [show splitOnceP pat (c :: s) =
        if (c :: s).take pat.length = pat
        then some ([], (c :: s).drop pat.length)
        else (splitOnceP pat s).map fun p => (c :: p.1, p.2) from rfl]
      rw [← List.cons_append]
      rw [if_pos h2, if_pos h]
      rw [List.drop_append_of_le_length hlen]
      simp
    · have h2 : ¬ (((c :: s) ++ tw).take pat.length = pat) := by
        intro hcontra
        by_cases hlen : pat.length ≤ (c :: s).length
        · rw [List.take_append_of_le_length hlen] at hcontra
          exact h hcontra
        · rw [List.take_append_eq_append_take] at hcontra
          rw [List.take_of_length_le (le_of_not_le hlen)] at hcontra
          have hm : 0 < pat.length - (c :: s).length := by omega
          simp only [List.length_cons] at hm
          rcases hw : tw.take (pat.length - (c :: s).length) with _ | ⟨w, wr⟩
          · rw [hw] at hcontra
            have := congrArg List.length hcontra
            simp at this
            omega
          · rw [hw] at hcontra
            have hwtw : w ∈ tw := by
              have : w ∈ tw.take (pat.length - (c :: s).length) := by
                rw [hw]; exact List.mem_cons_self w wr
              exact List.mem_of_mem_take this
            have hwpat : w ∈ pat := by
              rw [← hcontra]
              exact List.mem_append_right _ (List.mem_cons_self w wr)
            exact hdisj w hwtw hwpat
      rw [List.cons_append]
      rw [show splitOnceP pat (c :: (s ++ tw)) =
        if (c :: (s ++ tw)).take pat.length = pat
        then some ([], (c :: (s ++ tw)).drop pat.length)
        else (splitOnceP pat (s ++ tw)).map fun p => (c :: p.1, p.2) from rfl]
      rw [show splitOnceP pat (c :: s) =
        if (c :: s).take pat.length = pat
        then some ([], (c :: s).drop pat.length)
        else (splitOnceP pat s).map fun p => (c :: p.1, p.2) from rfl]
      rw [← List.cons_append]
      rw [if_neg h2, if_neg h, ih]
      cases splitOnceP pat s <;> simp

theorem lastCharIdx_none_of_disjoint {c : Char} {t : Str} (h : ∀ a ∈ t, a ≠ c) :
    lastCharIdx c t = none := by
  induction t with
  | nil => rfl
  | cons x t ih =>
    simp only [lastCharIdx, ih fun a ha => h a (List.mem_cons_of_mem x ha)]
    simp [h x (List.mem_cons_self x t)]

theorem rsplitOnceC_ws_suffix {c : Char} {tw : Str} (hdisj : ∀ a ∈ tw, a ≠ c) (s : Str) :
    rsplitOnceC c (s ++ tw) = (rsplitOnceC c s).map fun p => (p.1, p.2 ++ tw) := by
  rw [rsplitOnceC_eq_lastCharIdx, rsplitOnceC_eq_lastCharIdx, lastCharIdx_append,
    lastCharIdx_none_of_disjoint hdisj]
  cases h : lastCharIdx c s with
  | none => rfl
  | some k =>
    have hb := lastCharIdx_bound h
    simp only [Option.map_some']
    rw [List.take_append_of_le_length (le_of_lt hb), List.drop_append_of_le_length hb]

theorem incPat_ne_nil : incPat ≠ [] := by decide

theorem incPat_no_ws : ∀ b ∈ incPat, Char.isWhitespace b = false := by decide

theorem ws_disjoint {lw pat : Str} (hlw : ∀ a ∈ lw, Char.isWhitespace a = true)
    (hpat : ∀ b ∈ pat, Char.isWhitespace b = false) : ∀ a ∈ lw, a ∉ pat := by
  intro a ha hmem
  have h1 := hlw a ha
  have h2 := hpat a hmem
  rw [h1] at h2
  simp at h2

theorem extractPath_ws_suffix {tw : Str} (hws : ∀ a ∈ tw, Char.isWhitespace a = true)
    (z : Str) : extractPath (z ++ tw) = extractPath z := by
  have hlt : ∀ a ∈ tw, a ∉ ['<'] := ws_disjoint hws (by decide)
  have hgt : ∀ a ∈ tw, a ≠ '>' := by
    intro a ha he
    have := hws a ha
    rw [he] at this
    exact absurd this (by decide)
  unfold extractPath splitOnceC
  rw [splitOnceP_ws_suffix (by decide) hlt]
  cases h : splitOnceP ['<'] z with
  | none => rfl
  | some p =>
    simp only [Option.map_some']
    rw [rsplitOnceC_ws_suffix hgt]
    cases h2 : rsplitOnceC '>' p.2 with
    | none => rfl
    | some q => rfl

theorem extractPath_ws_front {lw : Str} (hws : ∀ a ∈ lw, Char.isWhitespace a = true)
    (z : Str) : extractPath (lw ++ z) = extractPath z := by
  have hlt : ∀ a ∈ lw, a ∉ ['<'] := ws_disjoint hws (by decide)
  unfold extractPath splitOnceC
  rw [splitOnceP_ws_front (by decide) hlt]
  cases h : splitOnceP ['<'] z with
  | none => rfl
  | some p => rfl

theorem rtrim_decomp (y : Str) :
    y = rtrim y ++ (y.reverse.takeWhile Char.isWhitespace).reverse ∧
    ∀ a ∈ (y.reverse.takeWhile Char.isWhitespace).reverse, Char.isWhitespace a = true := by
  constructor
  · conv_lhs => rw [← List.reverse_reverse y,
      ← List.takeWhile_append_dropWhile (p := Char.isWhitespace) (l := y.reverse)]
    rw [List.reverse_append]
    rfl
  · intro a ha
    rw [List.mem_reverse] at ha
    exact List.mem_takeWhile_imp ha

theorem trim_decomp (s : Str) :
    ∃ lw tw, s = lw ++ trimS s ++ tw ∧ (∀ a ∈ lw, Char.isWhitespace a = true) ∧
      (∀ a ∈ tw, Char.isWhitespace a = true) := by
  obtain ⟨hy, hws⟩ := rtrim_decomp (s.dropWhile Char.isWhitespace)
  refine ⟨s.takeWhile Char.isWhitespace,
    ((s.dropWhile Char.isWhitespace).reverse.takeWhile Char.isWhitespace).reverse, ?_, ?_, hws⟩
  · conv_lhs => rw [← List.takeWhile_append_dropWhile (p := Char.isWhitespace) (l := s), hy]
    rw [List.append_assoc]
    rfl
  · intro a ha
    exact List.mem_takeWhile_imp ha

theorem extractPath_trim (r : Str) : extractPath (trimS r) = extractPath r := by
  obtain ⟨hy, hws⟩ := rtrim_decomp (r.dropWhile Char.isWhitespace)
  have h1 : extractPath r = extractPath (r.dropWhile Char.isWhitespace) := by
    conv_lhs => rw [← List.takeWhile_append_dropWhile (p := Char.isWhitespace) (l := r)]
    exact extractPath_ws_front (fun a ha => List.mem_takeWhile_imp ha) _
  have h2 : extractPath (r.dropWhile Char.isWhitespace) = extractPath (trimS r) := by
    conv_lhs => rw [hy]
    exact extractPath_ws_suffix hws (trimS r)
  rw [h1, h2]

theorem lineDirective_eq_raw (line : Str) : lineDirective line = rawDirective line := by
  obtain ⟨lw, tw, hline, hlw, htw⟩ := trim_decomp line
  obtain ⟨m, hm⟩ : ∃ m, trimS line = m := ⟨_, rfl⟩
  rw [hm] at hline
  have hdlw : ∀ a ∈ lw, a ∉ incPat := ws_disjoint hlw incPat_no_ws
  have hdtw : ∀ a ∈ tw, a ∉ incPat := ws_disjoint htw incPat_no_ws
  have key : splitOnceP incPat line =
      (splitOnceP incPat m).map fun p => (lw ++ p.1, p.2 ++ tw) := by
    rw [hline, List.append_assoc, splitOnceP_ws_front incPat_ne_nil hdlw,
      splitOnceP_ws_suffix incPat_ne_nil hdtw]
    cases splitOnceP incPat m <;> simp
  unfold lineDirective rawDirective
  rw [hm, key]
  cases h : splitOnceP incPat m with
  | none => rfl
  | some p =>
    simp only [Option.map_some']
    show extractPath (trimS p.2) = extractPath (p.2 ++ tw)
    rw [extractPath_trim p.2, extractPath_ws_suffix htw p.2]

theorem rawDirective_eq_spec (line : Str) : rawDirective line = spec_lineDirective line := by
  unfold rawDirective spec_lineDirective
  rw [splitOnceP_eq_subIdx]
  cases h1 : subIdx incPat line with
  | none => rfl
  | some i =>
    simp only [Option.map_some']
    show extractPath (line.drop (i + incPat.length)) = _
    unfold extractPath splitOnceC
    rw [splitOnceP_eq_subIdx]
    have hcif : charIdxFrom '<' line (i + incPat.length) =
        (subIdx ['<'] (line.drop (i + incPat.length))).map
          fun j => j + (i + incPat.length) := rfl
    cases h2 : subIdx ['<'] (line.drop (i + incPat.length)) with
    | none =>
      rw [hcif, h2]
      rfl
    | some j1 =>
      rw [hcif, h2]
      simp only [Option.map_some']
      have hb1 := subIdx_bound h1
      have hb2 := subIdx_bound h2
      rw [List.length_drop] at hb2
      have hja : (line.drop (i + incPat.length)).drop (j1 + ['<'].length) =
          line.drop (j1 + (i + incPat.length) + 1) := by
        rw [List.drop_drop]
        congr 1
        simp [List.length_cons]
        omega
      have hjlen : j1 + (i + incPat.length) + 1 ≤ line.length := by
        simp only [List.length_cons, List.length_nil] at hb2
        omega
      have hlen_take : (line.take (j1 + (i + incPat.length) + 1)).length =
          j1 + (i + incPat.length) + 1 := by
        rw [List.length_take]
        omega
      have hlast : lastCharIdx '>' line =
          match lastCharIdx '>' (line.drop (j1 + (i + incPat.length) + 1)) with
          | some k1 => some ((j1 + (i + incPat.length) + 1) + k1)
          | none => lastCharIdx '>' (line.take (j1 + (i + incPat.length) + 1)) := by
        conv_lhs => rw [← List.take_append_drop (j1 + (i + incPat.length) + 1) line]
        rw [lastCharIdx_append, hlen_take]
      show (match rsplitOnceC '>' ((line.drop (i + incPat.length)).drop (j1 + ['<'].length)) with
        | none => none
        | some q => some q.1) = _
      rw [hja, rsplitOnceC_eq_lastCharIdx]
      cases h3 : lastCharIdx '>' (line.drop (j1 + (i + incPat.length) + 1)) with
      | none =>
        rw [h3] at hlast
        simp only [Option.map_none']
        cases h4 : lastCharIdx '>' (line.take (j1 + (i + incPat.length) + 1)) with
        | none =>
          rw [h4] at hlast
          rw [hlast]
        | some k =>
          rw [h4] at hlast
          rw [hlast]
          have hkb := lastCharIdx_bound h4
          rw [hlen_take] at hkb
          have : ¬ (j1 + (i + incPat.length) < k) := by omega
          simp [this]
      | some k1 =>
        rw [h3] at hlast
        rw [hlast]
        simp only [Option.map_some']
        have hlt : j1 + (i + incPat.length) < j1 + (i + incPat.length) + 1 + k1 := by omega
        simp only [hlt, if_true]
        have hsub : j1 + (i + incPat.length) + 1 + k1 - (j1 + (i + incPat.length) + 1) = k1 := by
          omega
        rw [hsub]

theorem lineDirective_eq_spec (line : Str) : lineDirective line = spec_lineDirective line :=
  (lineDirective_eq_raw line).trans (rawDirective_eq_spec line)

theorem firstDirective_eq_spec (i : Nat) (ls : List Str) :
    firstDirective i ls = spec_firstDirective i ls := by
  induction ls generalizing i with
  | nil => rfl
  | cons l ls ih =>
    unfold firstDirective spec_firstDirective
    rw [lineDirective_eq_spec]
    cases spec_lineDirective l with
    | some p => rfl
    | none => exact ih (i + 1)

/-- Claim C10: on every input, the include scanner selects the first line in
which the substring of the directive keyword occurs anywhere — also after
other leading characters — and extracts as the include path the characters
strictly between the first opening angle bracket after the keyword and the
last closing angle bracket on that line, silently skipping lines that
contain the keyword without such a bracket pair: the split-and-trim based
translation of find_next_include agrees with the index-based description
everywhere. -/
theorem c10_scanner_spec (input : Str) :
    find_next_include input = spec_find_next_include input := by
  unfold find_next_include spec_find_next_include
  exact firstDirective_eq_spec 0 (rustLines input)
